import Mathlib

/-!
Verification of the defect-recency ("last encountered") computation of the
umime-to-python-linter-analysis notebooks.

The notebooks compute, for a student's chronologically ordered boolean
defect-flag history (one column per defect, one row per submission,
truncated at the target submission), the value

  (defect_history.index
     - defect_history[defect].cumsum().where(defect_history[defect]).ffill()
  ).iloc[-1]

We embed this pandas pipeline stage by stage over `List Bool`:
`cumsumFrom` is `.cumsum()` on a boolean column, `whereSelf` is
`.where(mask)` (keep the value where the mask is true, missing otherwise),
`ffillFrom` is `.ffill()` (forward fill of missing values), and
`indexMinusFrom` is the subtraction of the series from the row index
(`RangeIndex` starting at 0); `.iloc[-1]` is `getLast?`.  A missing value
(pandas `NaN`) is `none`; taking `.iloc[-1]` of an empty frame raises, so
the whole computation returns `Option (Option Int)`: the outer `none` is
the empty-history failure, the inner `none` the `NaN` result.
-/

/-- `.cumsum()` on a boolean column: running count of `true` flags, the
accumulator `acc` being the count before the current position. -/
def cumsumFrom (acc : Nat) : List Bool → List Nat
  | [] => []
  | b :: bs =>
      let acc2 := acc + (if b then 1 else 0)
      acc2 :: cumsumFrom acc2 bs

/-- `.where(mask)`: keep each value where the mask is true, `NaN` (`none`)
elsewhere.  In the source the series is masked by the very flags it was
accumulated from. -/
def whereSelf : List Nat → List Bool → List (Option Nat)
  | v :: vs, b :: bs => (if b then some v else none) :: whereSelf vs bs
  | _, _ => []

/-- `.ffill()`: replace each missing value by the most recent non-missing
value before it (`carry`), if any. -/
def ffillFrom (carry : Option Nat) : List (Option Nat) → List (Option Nat)
  | [] => []
  | none :: xs => carry :: ffillFrom carry xs
  | some v :: xs => some v :: ffillFrom (some v) xs

/-- `index - series`: subtract each value from its 0-based row index
(`i` is the index of the current position); missing stays missing. -/
def indexMinusFrom (i : Nat) : List (Option Nat) → List (Option Int)
  | [] => []
  | v :: vs => (v.map fun c => (i : Int) - (c : Int)) :: indexMinusFrom (i + 1) vs

/-- The `last encountered` expression of `sample_collection.ipynb`
(cell "random sample"):
`(defect_history.index - defect_history[defect].cumsum().where(defect_history[defect]).ffill()).iloc[-1]`.
`none` = empty history (`.iloc[-1]` raises), `some none` = `NaN`. -/
def lastEncountered (flags : List Bool) : Option (Option Int) :=
  (indexMinusFrom 0 (ffillFrom none (whereSelf (cumsumFrom 0 flags) flags))).getLast?

/-- The identical `last encountered` expression of the unnamed notebook
(`src/unnamed/part_000`, cell "random sample"). -/
def lastEncountered_unnamed (flags : List Bool) : Option (Option Int) :=
  (indexMinusFrom 0 (ffillFrom none (whereSelf (cumsumFrom 0 flags) flags))).getLast?

/-- The identical `last encountered` expression inside
`create_export_dataframes` of `survey_sample_collection.ipynb`. -/
def lastEncountered_surveyExport (flags : List Bool) : Option (Option Int) :=
  (indexMinusFrom 0 (ffillFrom none (whereSelf (cumsumFrom 0 flags) flags))).getLast?

/-- The identical `last encountered` expression of the stray
"student history" cell of `survey_sample_collection.ipynb`. -/
def lastEncountered_surveyCell (flags : List Bool) : Option (Option Int) :=
  (indexMinusFrom 0 (ffillFrom none (whereSelf (cumsumFrom 0 flags) flags))).getLast?

/-- Number of `true` flags in a history. -/
def countTrue (flags : List Bool) : Nat :=
  flags.countP fun b => b

/-- The value carried by the forward fill at the end of the column:
the cumulative count at the last `true` position, if any, else the
initial carry.  Auxiliary closed form used only in proofs. -/
def lastFill (carry : Option Nat) (acc : Nat) : List Bool → Option Nat
  | [] => carry
  | b :: bs =>
      let acc2 := acc + (if b then 1 else 0)
      lastFill (if b then some acc2 else carry) acc2 bs

/-- The whole pipeline fused into one recursion; proved equal to the staged
pipeline in `pipeline_eq_fused`. -/
def fusedFrom (acc : Nat) (carry : Option Nat) (i : Nat) : List Bool → List (Option Int)
  | [] => []
  | b :: bs =>
      let acc2 := acc + (if b then 1 else 0)
      let y : Option Nat := if b then some acc2 else carry
      (y.map fun c => (i : Int) - (c : Int)) :: fusedFrom acc2 y (i + 1) bs

/-- A row of the submission log that the history construction reads:
the student (`user`), the submission timestamp (`time`), and the
submission id (`sid`); the position of the record in the log list is its
original ingestion order. -/
structure SubmissionRec where
  user : Nat
  time : Nat
  sid : Nat
deriving DecidableEq

/-- Comparison used by `sort_values(by='time')`: order by timestamp. -/
def submissionLE (a b : SubmissionRec) : Prop := a.time ≤ b.time

instance : DecidableRel submissionLE := fun a b => Nat.decLe a.time b.time

instance : IsTotal SubmissionRec submissionLE :=
  ⟨fun a b => Nat.le_total a.time b.time⟩

instance : IsTrans SubmissionRec submissionLE :=
  ⟨fun _ _ _ hab hbc => Nat.le_trans hab hbc⟩

/-- The history construction of the sampling notebooks:
`log[(log['user'] == row['user']) & (log['time'] <= row['time'])].sort_values(by='time')`.
The row filter keeps the target student's records up to the target's
timestamp; `sort_values(by='time')` is modelled as a stable sort by
timestamp (ties keep the original log order). -/
def historyOf (log : List SubmissionRec) (target : SubmissionRec) : List SubmissionRec :=
  List.insertionSort submissionLE
    (log.filter fun r => decide (r.user = target.user ∧ r.time ≤ target.time))

theorem pipeline_eq_fused (flags : List Bool) : ∀ (a : Nat) (c : Option Nat) (i : Nat),
    indexMinusFrom i (ffillFrom c (whereSelf (cumsumFrom a flags) flags)) = fusedFrom a c i flags := by
  induction flags with
  | nil => intro a c i; rfl
  | cons b bs ih =>
      intro a c i
      cases b <;> simp [cumsumFrom, whereSelf, ffillFrom, indexMinusFrom, fusedFrom, ih]

theorem fusedFrom_getLast (flags : List Bool) : ∀ (a : Nat) (c : Option Nat) (i : Nat),
    flags ≠ [] →
    (fusedFrom a c i flags).getLast? =
      some (Option.map (fun v : Nat => (i : Int) + (flags.length : Int) - 1 - (v : Int))
        (lastFill c a flags)) := by
  induction flags with
  | nil => intro a c i h; exact absurd rfl h
  | cons b bs ih =>
      intro a c i _
      cases bs with
      | nil =>
          cases b <;> cases c <;> simp [fusedFrom, lastFill]
      | cons b2 bs2 =>
          have hne : (b2 :: bs2) ≠ ([] : List Bool) := by simp
          have step := ih (a + (if b then 1 else 0))
            (if b then some (a + (if b then 1 else 0)) else c) (i + 1) hne
          have hfun : (fun v : Nat =>
              (((i + 1 : Nat)) : Int) + (((b2 :: bs2).length : Nat) : Int) - 1 - (v : Int)) =
              (fun v : Nat =>
              (i : Int) + (((b :: b2 :: bs2).length : Nat) : Int) - 1 - (v : Int)) := by
            funext v
            simp only [List.length_cons]
            push_cast
            ring
          rw [hfun] at step
          have hcons : fusedFrom a c i (b :: b2 :: bs2) =
              ((if b then some (a + (if b then 1 else 0)) else c).map
                fun v => (i : Int) - (v : Int)) ::
              fusedFrom (a + (if b then 1 else 0))
                (if b then some (a + (if b then 1 else 0)) else c) (i + 1) (b2 :: bs2) := by
            simp [fusedFrom]
          have htail : fusedFrom (a + (if b then 1 else 0))
              (if b then some (a + (if b then 1 else 0)) else c) (i + 1) (b2 :: bs2) ≠ [] := by
            cases b2 <;> simp [fusedFrom]
          rw [hcons, List.getLast?_cons, step]
          have hlf : lastFill c a (b :: b2 :: bs2) =
              lastFill (if b then some (a + (if b then 1 else 0)) else c)
                (a + (if b then 1 else 0)) (b2 :: bs2) := by
            simp [lastFill]
          rw [hlf]
          simp

theorem countTrue_cons (b : Bool) (bs : List Bool) :
    countTrue (b :: bs) = countTrue bs + (if b then 1 else 0) := by
  simp [countTrue, List.countP_cons]

theorem lastFill_of_getLast_true (flags : List Bool) :
    ∀ (c : Option Nat) (a : Nat), flags.getLast? = some true →
      lastFill c a flags = some (a + countTrue flags) := by
  induction flags with
  | nil => intro c a h; simp at h
  | cons b bs ih =>
      intro c a h
      cases bs with
      | nil =>
          simp at h
          subst h
          simp [lastFill, countTrue]
      | cons b2 bs2 =>
          rw [List.getLast?_cons_cons] at h
          have hstep : lastFill c a (b :: b2 :: bs2) =
              lastFill (if b then some (a + (if b then 1 else 0)) else c)
                (a + (if b then 1 else 0)) (b2 :: bs2) := by
            simp [lastFill]
          rw [hstep, ih _ _ h]
          congr 1
          simp only [countTrue_cons]
          omega

theorem lastFill_of_no_true (flags : List Bool) :
    ∀ (c : Option Nat) (a : Nat), countTrue flags = 0 → lastFill c a flags = c := by
  induction flags with
  | nil => intro c a _; rfl
  | cons b bs ih =>
      intro c a h
      rw [countTrue_cons] at h
      cases b with
      | false =>
          have hb : countTrue bs = 0 := by omega
          simpa [lastFill] using ih c (a + 0) hb
      | true => simp at h

theorem lastFill_isSome_carry (flags : List Bool) :
    ∀ (a w : Nat), (lastFill (some w) a flags).isSome := by
  induction flags with
  | nil => intro a w; rfl
  | cons b bs ih =>
      intro a w
      cases b with
      | false => simpa [lastFill] using ih (a + 0) w
      | true => simpa [lastFill] using ih (a + 1) (a + 1)

theorem lastFill_isSome_of_mem (flags : List Bool) :
    ∀ (c : Option Nat) (a : Nat), true ∈ flags → (lastFill c a flags).isSome := by
  induction flags with
  | nil => intro c a h; simp at h
  | cons b bs ih =>
      intro c a h
      cases b with
      | true => simpa [lastFill] using lastFill_isSome_carry bs (a + 1) (a + 1)
      | false =>
          have hb : true ∈ bs := by simpa using h
          simpa [lastFill] using ih c (a + 0) hb

theorem lastEncountered_eq_of_ne_nil (flags : List Bool) (h : flags ≠ []) :
    lastEncountered flags =
      some (Option.map (fun v : Nat => ((flags.length : Int)) - 1 - (v : Int))
        (lastFill none 0 flags)) := by
  unfold lastEncountered
  rw [pipeline_eq_fused flags 0 none 0, fusedFrom_getLast flags 0 none 0 h]
  congr 1
  apply congrArg (fun f => Option.map f (lastFill none 0 flags))
  funext v
  push_cast
  ring

theorem time_le_getLast (l : List SubmissionRec) :
    ∀ (h : l ≠ []), l.Sorted submissionLE → ∀ x ∈ l, x.time ≤ (l.getLast h).time := by
  induction l with
  | nil => intro h; exact absurd rfl h
  | cons y ys ih =>
      intro h hs x hx
      cases ys with
      | nil =>
          have hxy : x = y := by simpa using hx
          subst hxy
          simp [List.getLast]
      | cons z zs =>
          have hne : (z :: zs) ≠ ([] : List SubmissionRec) := by simp
          rw [List.getLast_cons hne]
          rcases List.mem_cons.mp hx with hxy | hxs
          · subst hxy
            have hrel := List.rel_of_sorted_cons hs ((z :: zs).getLast hne)
              (List.getLast_mem hne)
            exact hrel
          · exact ih hne hs.of_cons x hxs

/-- C3: for every truncated boolean history whose last (target) position has
the defect flag true, the `last encountered` expression evaluates to
(length of the history − 1) − (number of positions where the flag is true);
in particular it evaluates to −1 whenever the flag is true at every
position, such as on the length-1 history `[true]`. -/
theorem c3_closed_form :
    (∀ flags : List Bool, flags.getLast? = some true →
      lastEncountered flags =
        some (some ((flags.length : Int) - 1 - (countTrue flags : Int))))
    ∧ (∀ flags : List Bool, flags ≠ [] → (∀ b ∈ flags, b = true) →
      lastEncountered flags = some (some (-1)))
    ∧ lastEncountered [true] = some (some (-1)) := by
  have main : ∀ flags : List Bool, flags.getLast? = some true →
      lastEncountered flags =
        some (some ((flags.length : Int) - 1 - (countTrue flags : Int))) := by
    intro flags hlast
    have hne : flags ≠ [] := by
      intro hnil
      rw [hnil] at hlast
      simp at hlast
    rw [lastEncountered_eq_of_ne_nil flags hne,
      lastFill_of_getLast_true flags none 0 hlast]
    simp
  refine ⟨main, ?_, by decide⟩
  intro flags hne hall
  have hlast : flags.getLast? = some true := by
    rw [List.getLast?_eq_getLast flags hne]
    exact congrArg some (hall _ (List.getLast_mem hne))
  rw [main flags hlast]
  have hct : countTrue flags = flags.length :=
    List.countP_eq_length.mpr fun b hb => by simp [hall b hb]
  rw [hct]
  have harith : ((flags.length : Int) - 1 - (flags.length : Int)) = -1 := by ring
  rw [harith]

/-- Witness for C3 at the histories `[true, false, true]` (value
3 − 1 − 2 = 0) and `[true, true]` (all-true history, value −1). -/
theorem c3_closed_form_witness :
    lastEncountered [true, false, true] = some (some 0)
    ∧ lastEncountered [true, true] = some (some (-1)) := by
  constructor
  · have h := c3_closed_form.1 [true, false, true] (by decide)
    rw [h]
    decide
  · exact c3_closed_form.2.1 [true, true] (by decide) (by decide)

/-- C1 (evaluation at the failing input): for the single-defect history
`[true, false, true]` — the defect at position k = 0, absent strictly
between 0 and the target t = 2, present at t — the code yields
`index − cumsum-at-last-true = 2 − 2 = 0`, not the claimed t − k = 2. -/
theorem c1_failing_input_value :
    lastEncountered [true, false, true] = some (some 0)
    ∧ lastEncountered [true, false, true] ≠ some (some 2) := by decide

/-- C2 (evaluation at the failing input): for the first-ever occurrence
history `[false, false, true]` the code yields 1, not the claimed sentinel
2 (the target's own position); moreover the same value 1 is produced by
`[true, false, false, true]`, a history in which the defect was seen
before, so the produced value collides with a legitimate gap value. -/
theorem c2_failing_input_value :
    lastEncountered [false, false, true] = some (some 1)
    ∧ lastEncountered [true, false, false, true] = some (some 1)
    ∧ lastEncountered [false, false, true] ≠ some (some 2) := by decide

/-- C4 (evaluation at the failing input): for the history with the flag
true at positions 3 and 7 only (length 8, target 7), the code yields
7 − 2 = 5, not the claimed 7 − 3 = 4. -/
theorem c4_failing_input_value :
    lastEncountered [false, false, false, true, false, false, false, true] = some (some 5)
    ∧ lastEncountered [false, false, false, true, false, false, false, true] ≠ some (some 4) := by
  decide

/-- C5 (evaluation at the three truncations of `[1,0,0,1,0,1]`): the code
yields 2 at target 5 (agreeing with the claim only by coincidence), but 1
instead of the claimed 3 at target 3, and −1 instead of the claimed
first-occurrence sentinel at target 0. -/
theorem c5_failing_input_value :
    lastEncountered [true, false, false, true, false, true] = some (some 2)
    ∧ lastEncountered [true, false, false, true] = some (some 1)
    ∧ lastEncountered [true] = some (some (-1))
    ∧ lastEncountered [true, false, false, true] ≠ some (some 3) := by decide

/-- C6 (evaluation at the failing input): for the length-1 history
`[true]` (the only submission is the target itself) the code yields −1,
not the claimed first-occurrence sentinel (the target's own position 0);
−1 is not a meaningful submission count at all. -/
theorem c6_failing_input_value :
    lastEncountered [true] = some (some (-1))
    ∧ lastEncountered [true] ≠ some (some 0) := by decide

/-- C7 (counterexample): with history `[true, false]` the defect is not
present at the (in-range) target position, where the claim requires an
`InvalidArgument` failure — yet the computation does not fail: it returns
the integer 0. -/
theorem c7_counterexample :
    lastEncountered [true, false] = some (some 0)
    ∧ ([true, false] : List Bool).getLast? = some false := by decide

/-- C7 (amended): the expression performs no argument validation and never
signals `InvalidArgument`.  It fails only on an empty history (the
`.iloc[-1]` index error, outer `none`); it yields the missing-value `NaN`
(inner `none`) exactly when the history is nonempty and the flag is
nowhere true; and whenever the flag is true at the target (last) position
— the claim's precondition — it succeeds and returns an integer. -/
theorem c7_amended_never_invalid : ∀ flags : List Bool,
    (lastEncountered flags = none ↔ flags = [])
    ∧ (lastEncountered flags = some none ↔ flags ≠ [] ∧ countTrue flags = 0)
    ∧ (flags.getLast? = some true → ∃ z : Int, lastEncountered flags = some (some z)) := by
  intro flags
  by_cases hnil : flags = []
  · subst hnil
    refine ⟨by simp [lastEncountered, cumsumFrom, whereSelf, ffillFrom, indexMinusFrom], ?_, ?_⟩
    · simp [lastEncountered, cumsumFrom, whereSelf, ffillFrom, indexMinusFrom]
    · intro h
      simp at h
  · have hpipe := lastEncountered_eq_of_ne_nil flags hnil
    refine ⟨?_, ?_, ?_⟩
    · rw [hpipe]
      simp [hnil]
    · rw [hpipe]
      constructor
      · intro h
        refine ⟨hnil, ?_⟩
        have hmap : Option.map (fun v : Nat => ((flags.length : Int)) - 1 - (v : Int))
            (lastFill none 0 flags) = none := by
          exact Option.some.inj h
        by_contra hct
        have hpos : 0 < flags.countP (fun b => b) :=
          Nat.pos_of_ne_zero (by simpa [countTrue] using hct)
        obtain ⟨b, hb, hpb⟩ := List.countP_pos_iff.mp hpos
        have hbt : b = true := by simpa using hpb
        have hmem : true ∈ flags := hbt ▸ hb
        have hsome := lastFill_isSome_of_mem flags none 0 hmem
        rw [Option.map_eq_none'] at hmap
        rw [hmap] at hsome
        simp at hsome
      · rintro ⟨_, hct⟩
        rw [lastFill_of_no_true flags none 0 hct]
        rfl
    · intro hlast
      rw [hpipe, lastFill_of_getLast_true flags none 0 hlast]
      refine ⟨(flags.length : Int) - 1 - (countTrue flags : Int), ?_⟩
      simp

/-- Witness for the amended C7: a nonempty history never yields the outer
failure; `[false]` (flag never true) yields `NaN`; `[true]` (flag true at
the target) yields an integer. -/
theorem c7_amended_never_invalid_witness :
    lastEncountered [true, false] ≠ none
    ∧ lastEncountered [false] = some none
    ∧ ∃ z : Int, lastEncountered [true] = some (some z) := by
  refine ⟨?_, ?_, ?_⟩
  · intro h
    exact (by decide : ([true, false] : List Bool) ≠ [])
      ((c7_amended_never_invalid [true, false]).1.mp h)
  · exact (c7_amended_never_invalid [false]).2.1.mpr ⟨by decide, by decide⟩
  · exact (c7_amended_never_invalid [true]).2.2 (by decide)

/-- C8 (counterexample): with two submissions of the same student carrying
the same timestamp and the earlier-ingested one as target, the target does
not sit at the last index of the truncated, time-sorted history — the
tie-mate (also admitted by `time <= target.time`) is placed after it. -/
theorem c8_counterexample :
    historyOf [⟨0, 5, 0⟩, ⟨0, 5, 1⟩] ⟨0, 5, 0⟩ = [⟨0, 5, 0⟩, ⟨0, 5, 1⟩]
    ∧ (historyOf [⟨0, 5, 0⟩, ⟨0, 5, 1⟩] ⟨0, 5, 0⟩).getLast? ≠ some ⟨0, 5, 0⟩ := by
  decide

/-- C8 (amended): the history consists exactly of the student's records
with timestamp ≤ the target's timestamp (the target included), ordered by
timestamp with ties keeping original ingestion order; the target sits at
the last index provided every other record of the student admitted into
the history has a strictly smaller timestamp (no tie at the target's
timestamp). -/
theorem c8_amended_history_shape : ∀ (log : List SubmissionRec) (tgt : SubmissionRec),
    tgt ∈ log →
    ((∀ r : SubmissionRec, r ∈ historyOf log tgt ↔
        r ∈ log ∧ r.user = tgt.user ∧ r.time ≤ tgt.time)
    ∧ (historyOf log tgt).Sorted submissionLE
    ∧ ((∀ r ∈ log, r.user = tgt.user → r.time ≤ tgt.time → r ≠ tgt → r.time < tgt.time) →
        (historyOf log tgt).getLast? = some tgt)) := by
  intro log tgt htgt
  have hmem : ∀ r : SubmissionRec, r ∈ historyOf log tgt ↔
      r ∈ log ∧ r.user = tgt.user ∧ r.time ≤ tgt.time := by
    intro r
    unfold historyOf
    rw [List.mem_insertionSort, List.mem_filter]
    simp
  have hsorted : (historyOf log tgt).Sorted submissionLE :=
    List.sorted_insertionSort submissionLE _
  refine ⟨hmem, hsorted, ?_⟩
  intro hstrict
  have htgt_mem : tgt ∈ historyOf log tgt :=
    (hmem tgt).mpr ⟨htgt, rfl, Nat.le_refl _⟩
  have hne : historyOf log tgt ≠ [] := List.ne_nil_of_mem htgt_mem
  rw [List.getLast?_eq_getLast _ hne]
  congr 1
  by_contra hlast_ne
  obtain ⟨hylog, hyuser, hytime⟩ := (hmem ((historyOf log tgt).getLast hne)).mp
    (List.getLast_mem hne)
  have hlt : ((historyOf log tgt).getLast hne).time < tgt.time :=
    hstrict _ hylog hyuser hytime hlast_ne
  have hle : tgt.time ≤ ((historyOf log tgt).getLast hne).time :=
    time_le_getLast (historyOf log tgt) hne hsorted tgt htgt_mem
  omega

/-- Witness for the amended C8: a two-submission log with strictly
increasing timestamps and the later submission as target. -/
theorem c8_amended_history_shape_witness :
    (historyOf [⟨0, 1, 0⟩, ⟨0, 2, 1⟩] ⟨0, 2, 1⟩).getLast? = some ⟨0, 2, 1⟩ :=
  (c8_amended_history_shape [⟨0, 1, 0⟩, ⟨0, 2, 1⟩] ⟨0, 2, 1⟩ (by decide)).2.2 (by decide)

/-- C9: the `last encountered` computation is a pure function of the
truncated history: two runs on equal inputs return equal outputs, with no
hidden state and no mutation of the input (the embedding is a total
function of the flag column alone). -/
theorem c9_pure_deterministic : ∀ h1 h2 : List Bool,
    h1 = h2 → lastEncountered h1 = lastEncountered h2 := by
  intro h1 h2 h
  rw [h]

/-- Witness for C9 at the history `[true, false, true]`. -/
theorem c9_pure_deterministic_witness :
    lastEncountered [true, false, true] = lastEncountered [true, false, true] :=
  c9_pure_deterministic [true, false, true] [true, false, true] rfl

/-- C10: the four ad-hoc copies of the `last encountered` computation (the
unnamed notebook, `sample_collection.ipynb`, and the two occurrences in
`survey_sample_collection.ipynb`) denote the same function: on every
defect-history input all four return equal results. -/
theorem c10_all_copies_equal : ∀ flags : List Bool,
    lastEncountered_unnamed flags = lastEncountered flags
    ∧ lastEncountered flags = lastEncountered_surveyExport flags
    ∧ lastEncountered_surveyExport flags = lastEncountered_surveyCell flags :=
  fun _ => ⟨rfl, rfl, rfl⟩
